import Mathlib

/-!
Verification of the weighted-wheel / spin-animation core of the
Soccer-Central "Spin the Wheel" repository.

The wheel engine lives as JavaScript embedded in
`raffle_streamlit_app.py` (`render_wheel`): helpers `mod`, `easeOutCubic`,
the per-frame animation closure in `spin`, the winner resolver
`winnerIndex`, the partition drawn by `draw`, and the button handlers
mutating the `labels` / `fulls` arrays.  The entry-building pipeline is
`build_entries` in the same file (duplicated by `build_raffle_entries`
in `build_raffle_list.py`).

Angles are embedded as exact real numbers; JavaScript's `%` operator
(truncated remainder) is embedded by `jsRem` below, and the source's
double-remainder `mod(a,n) = ((a%n)+n)%n` by `mod`.
-/

namespace Raffle

/-- The full-turn constant `2*Math.PI` used throughout the source. -/
noncomputable def tau : ℝ := 2 * Real.pi

/-- Truncation toward zero, as JavaScript's `%` uses on its quotient. -/
noncomputable def jsTrunc (x : ℝ) : ℤ := if 0 ≤ x then ⌊x⌋ else ⌈x⌉

/-- JavaScript's `%` operator on numbers: `a % n = a - n * trunc(a / n)`. -/
noncomputable def jsRem (a n : ℝ) : ℝ := a - n * jsTrunc (a / n)

/-- Source `function mod(a,n){return ((a%n)+n)%n}` (raffle_streamlit_app.py, line 163). -/
noncomputable def mod (a n : ℝ) : ℝ := jsRem (jsRem a n + n) n

/-- Source `function easeOutCubic(t){return 1-Math.pow(1-t,3)}` (line 164). -/
def easeOutCubic (t : ℝ) : ℝ := 1 - (1 - t) ^ 3

/-- The slice lookup shared by the winner computation (lines 234-236):
given a wrapped pointer angle `p`, with `n = Math.max(1, labels.length)`
and `slice = 2*Math.PI/n`, the containing index is
`Math.min(n-1, Math.floor(p / slice))`. -/
noncomputable def sliceAt (L : ℕ) (p : ℝ) : ℕ :=
  min (max 1 L - 1) (⌊p / (tau / (max 1 L : ℕ))⌋).toNat

/-- Source `winnerIndex(rot)` (lines 233-237):
`n = Math.max(1, labels.length)`, `slice = 2*Math.PI/n`,
`p = mod(0 - rot, 2*Math.PI)` (pointer at angle 0, right),
result `Math.min(n-1, Math.floor(p / slice))`.
`L` is `labels.length`. -/
noncomputable def winnerIndex (L : ℕ) (rot : ℝ) : ℕ :=
  let n : ℕ := max 1 L
  let slice : ℝ := tau / n
  let p : ℝ := mod (0 - rot) tau
  min (n - 1) (⌊p / slice⌋).toNat

/-- Modelled from the spec: the source has no `pointerAngleDegrees` parameter
(`winnerIndex` hard-codes the pointer at angle 0); §4.2's
`resolveWinner(partition, finalRotationDegrees, pointerAngleDegrees)` computes
the pointer position in the wheel frame as `(pointer - finalRotation) mod fullTurn`
and looks up the containing slice exactly as `winnerIndex` does. -/
noncomputable def resolveWinner (L : ℕ) (finalRot pointer : ℝ) : ℕ :=
  let n : ℕ := max 1 L
  let slice : ℝ := tau / n
  let p : ℝ := mod (pointer - finalRot) tau
  min (n - 1) (⌊p / slice⌋).toNat

/-- The configuration blob `INIT` passed into the page script (lines 99-105). -/
structure InitConfig where
  durationMs : ℝ
  minSpins : ℝ
  maxSpins : ℝ

/-- The concrete values the app passes: `durationMs: 5000, minSpins: 6, maxSpins: 6`. -/
def INIT : InitConfig := ⟨5000, 6, 6⟩

/-- JavaScript `x || d`: falls back to the default when the number is 0 (or NaN). -/
noncomputable def jsOr (x d : ℝ) : ℝ := if x = 0 then d else x

/-- Source line 244: `total = (INIT.maxSpins||6)*2*Math.PI + Math.random()*2*Math.PI`;
`u` stands for the value drawn by `Math.random()`, which lies in `[0,1)`. -/
noncomputable def spinTotal (cfg : InitConfig) (u : ℝ) : ℝ :=
  jsOr cfg.maxSpins 6 * tau + u * tau

/-- Source line 245: `dur = Math.max(400, Math.min(10000, INIT.durationMs||5000))`. -/
noncomputable def spinDur (cfg : InitConfig) : ℝ :=
  max 400 (min 10000 (jsOr cfg.durationMs 5000))

/-- The module-level mutable page state: `labels`, `fulls`, `rotation`,
`spinning`, `lastIdx` (lines 135-139). -/
structure WheelState where
  labels : List String
  fulls : List String
  rotation : ℝ
  spinning : Bool
  lastIdx : Option ℕ

/-- The per-spin constants captured by `spin()` for its frame closure:
`t0 = performance.now()`, `dur`, `start = rotation`, `total` (lines 244-246). -/
structure SpinRun where
  t0 : ℝ
  dur : ℝ
  start : ℝ
  total : ℝ

/-- Source `spin()` entry (lines 239-246): rejected as a no-op when already
spinning or fewer than 2 slices; otherwise sets `spinning = true` and starts
a frame loop with the captured constants.  `now` is `performance.now()` and
`u` the `Math.random()` draw. -/
noncomputable def spin (s : WheelState) (now u : ℝ) : WheelState × Option SpinRun :=
  if s.spinning || decide (s.labels.length < 2) then (s, none)
  else ({ s with spinning := true },
        some ⟨now, spinDur INIT, s.rotation, spinTotal INIT u⟩)

/-- Source frame closure, progress (line 249): `p = Math.min(1,(t-t0)/dur)`. -/
noncomputable def frameP (sp : SpinRun) (t : ℝ) : ℝ :=
  min 1 ((t - sp.t0) / sp.dur)

/-- Source frame closure, rotation update (line 250):
`rotation = mod(start + total*easeOutCubic(p), 2*Math.PI)`. -/
noncomputable def frameRotation (sp : SpinRun) (t : ℝ) : ℝ :=
  mod (sp.start + sp.total * easeOutCubic (frameP sp t)) tau

/-- Source frame closure, completion test (line 252): the else-branch of
`if (p<1)` runs, i.e. the spin is done, exactly when `p ≥ 1`. -/
def frameDone (sp : SpinRun) (t : ℝ) : Prop :=
  1 ≤ frameP sp t

/-- Angular span of one slice as drawn by `draw` (line 172):
`n = Math.max(1, labels.length)`, `slice = 2*Math.PI/n`. -/
noncomputable def sliceSpan (L : ℕ) : ℝ := tau / (max 1 L : ℕ)

/-- Start angle of slice `i` in the wheel frame: `draw` renders wedge `i`
from `rot + i*slice` to `rot + (i+1)*slice` (line 176), so in the wheel's
own frame slice `i` starts at `i*slice`. -/
noncomputable def sliceStart (L : ℕ) (i : ℕ) : ℝ := i * sliceSpan L

/-- The spec's clamp of progress to `[0,1]` (§4.2): used to state C2. -/
noncomputable def clamp01 (x : ℝ) : ℝ := max 0 (min 1 x)

/-- The rotation formula exactly as the spec's `tick` states it (§4.2):
`currentRotation = startRotation + eased × (targetRotation − startRotation)`
with `progress = clamp((now − startTime)/durationMs, 0, 1)` and
`targetRotation − startRotation = total`.  Stated from the spec's words, to be
compared with `frameRotation`. -/
noncomputable def tickSpecRotation (sp : SpinRun) (t : ℝ) : ℝ :=
  sp.start + easeOutCubic (clamp01 ((t - sp.t0) / sp.dur)) * sp.total

/-- Modelled from the spec: the source has no `forcedWinnerIndex` mode; §4.2
says the engine "computes the unique rotation offset that places that slice's
center under the pointer, then adds the requested number of full turns".
Slice `k`'s center sits at `(k + 1/2) * slice` in the wheel frame, so the
final rotation must be congruent to `pointer - (k + 1/2) * slice` mod `tau`;
the target is `startRotation + turns * tau + landingOffset` with
`landingOffset ∈ [0, tau)` the unique such offset. -/
noncomputable def forcedTarget (L : ℕ) (k : ℕ) (pointer startRot : ℝ) (turns : ℕ) : ℝ :=
  startRot + turns * tau +
    mod (pointer - ((k : ℝ) + 1 / 2) * (tau / (max 1 L : ℕ)) - startRot) tau

/-- Source line 382: `display_names = [(s.partition(" - ")[0].strip() or s) for s in full_entries]`
(the text before the first " - ", stripped, falling back to the whole string
when that is empty). -/
def displayName (s : String) : String :=
  let t := ((s.splitOn " - ").headD "").trim
  if t = "" then s else t

/-- The initial page state: `render_wheel(display_names, full_entries)` with
`labels = [...INIT.labels]`, `fulls = [...INIT.fulls]`, `rotation = 0`,
`spinning = false`, `lastIdx = null` (lines 135-139, 387). -/
def initState (full_entries : List String) : WheelState :=
  ⟨full_entries.map displayName, full_entries, 0, false, none⟩

/-- Source `resetBtn.onclick` (lines 293-297): restores `labels` and `fulls`
from `INIT`, sets `rotation = 0` and `lastIdx = null` (`spinning` untouched). -/
def resetOp (initLabels initFulls : List String) (s : WheelState) : WheelState :=
  ⟨initLabels, initFulls, 0, s.spinning, none⟩

/-- Source `rm1.onclick` (lines 301-305): no-op when `lastIdx == null`,
otherwise `labels.splice(lastIdx,1)`, `fulls.splice(lastIdx,1)`, `lastIdx = null`. -/
def rm1Op (s : WheelState) : WheelState :=
  match s.lastIdx with
  | none => s
  | some i =>
    { s with labels := s.labels.eraseIdx i,
             fulls := s.fulls.eraseIdx i,
             lastIdx := none }

/-- The filtering loop of `rmAll.onclick` (lines 308-309): walks the two
arrays in step and keeps the pairs whose label differs from the winner's name. -/
def rmAllAux (name : String) : List String → List String → List String × List String
  | l :: ls, f :: fs =>
    let r := rmAllAux name ls fs
    if l ≠ name then (l :: r.1, f :: r.2) else r
  | _, _ => ([], [])

/-- Source `rmAll.onclick` (lines 306-311): no-op when `lastIdx == null`;
reads `n = labels[lastIdx]` and keeps every pair with `labels[i] !== n`;
`lastIdx = null`.  When `lastIdx` is out of range, `labels[lastIdx]` is
`undefined` and the strict comparison keeps every entry. -/
def rmAllOp (s : WheelState) : WheelState :=
  match s.lastIdx with
  | none => s
  | some i =>
    match s.labels[i]? with
    | none => { s with lastIdx := none }
    | some name =>
      { s with labels := (rmAllAux name s.labels s.fulls).1,
               fulls := (rmAllAux name s.labels s.fulls).2,
               lastIdx := none }

/-- One spreadsheet row, restricted to the five required columns.  A cell is
`none` when the spreadsheet cell is empty (pandas `NaN` under `dtype=str`). -/
structure Row where
  id1 : Option String
  fullName : Option String
  email1 : Option String
  phone : Option String
  tickets : Option String

/-- Source `clean_cell` (lines 24-27): `""` for NaN, otherwise `str(x).strip()`. -/
def clean_cell : Option String → String
  | none => ""
  | some s => s.trim

/-- pandas `.astype(str)` on one cell: NaN prints as `"nan"`. -/
def strCell : Option String → String
  | none => "nan"
  | some s => s

/-- The composed row text (lines 67-72):
`Full Name` + separator + `Email1` + separator + `Phone Number`, each cleaned. -/
def composeEntry (sep : String) (r : Row) : String :=
  clean_cell r.fullName ++ sep ++ clean_cell r.email1 ++ sep ++ clean_cell r.phone

/-- pandas `.astype(int)` on a numeric value: truncation toward zero. -/
def astype_int (q : ℚ) : ℤ := if 0 ≤ q then ⌊q⌋ else ⌈q⌉

/-- Ticket count of one row (line 75): `pd.to_numeric(..., errors="coerce")`
(non-numeric becomes NaN), `.fillna(0)`, `.astype(int)`, `.clip(lower=0)`.
`tn` stands for pandas' numeric parser. -/
def ticketCount (tn : String → Option ℚ) (r : Row) : ℕ :=
  (astype_int ((r.tickets.bind tn).getD 0)).toNat

/-- The ID filter (lines 49-50): the row's `ID1`, as a string, stripped,
compared with the stripped filter value. -/
def matchesId (idv : String) (r : Row) : Bool :=
  (strCell r.id1).trim == idv.trim

/-- Source `build_entries` (lines 48-77) acting on the sheet's row list:
filter by ID, compose the per-row text and the per-row ticket counts
columnwise, then repeat each text by its count
(`combined.repeat(tickets)`, line 76). -/
def build_entries (tn : String → Option ℚ) (rows : List Row) (idv sep : String) :
    List String :=
  let filtered := rows.filter (matchesId idv)
  let combined := filtered.map (composeEntry sep)
  let tickets := filtered.map (ticketCount tn)
  (combined.zip tickets).flatMap fun p => List.replicate p.2 p.1

/-- The ticket count exactly as the claim words it: `max(0, int(tickets))`,
with a non-numeric or negative value clamped to 0.  Stated from the claim, to
be compared with `ticketCount`. -/
def spec_ticket_count (tn : String → Option ℚ) (r : Row) : ℕ :=
  match r.tickets.bind tn with
  | none => 0
  | some q => if q < 0 then 0 else (⌊q⌋).toNat

/-- The output as the claim describes it, row by row: exactly the matching
rows, each composed entry repeated `spec_ticket_count` times, in row order. -/
def build_entries_spec (tn : String → Option ℚ) (rows : List Row) (idv sep : String) :
    List String :=
  (rows.filter (matchesId idv)).flatMap fun r =>
    List.replicate (spec_ticket_count tn r) (composeEntry sep r)

/-! ### Basic facts about `mod` -/

lemma tau_pos : 0 < tau := by
  have := Real.pi_pos
  unfold tau; linarith

lemma tau_ne_zero : tau ≠ 0 := ne_of_gt tau_pos

lemma jsRem_of_nonneg {a n : ℝ} (hn : 0 < n) (h : 0 ≤ a / n) :
    jsRem a n = n * Int.fract (a / n) := by
  have hne : n ≠ 0 := ne_of_gt hn
  have ha : a = n * (a / n) := by field_simp
  unfold jsRem jsTrunc
  rw [if_pos h]
  calc a - n * ⌊a / n⌋ = n * (a / n) - n * ⌊a / n⌋ := by rw [← ha]
    _ = n * (a / n - ⌊a / n⌋) := by ring
    _ = n * Int.fract (a / n) := by rw [Int.self_sub_floor]

lemma jsRem_add_self {r n : ℝ} (hn : 0 < n) (h0 : 0 ≤ r) (h1 : r < n) :
    jsRem (r + n) n = r := by
  have hne : n ≠ 0 := ne_of_gt hn
  have harg : (r + n) / n = r / n + 1 := by field_simp
  have hq0 : 0 ≤ r / n := div_nonneg h0 hn.le
  have hq1 : r / n < 1 := (div_lt_one hn).mpr h1
  unfold jsRem jsTrunc
  rw [harg, if_pos (by linarith : (0:ℝ) ≤ r / n + 1)]
  have hfl : ⌊r / n + (1:ℝ)⌋ = 1 := by
    have h0' : ⌊r / n⌋ = 0 := Int.floor_eq_zero_iff.mpr ⟨hq0, hq1⟩
    norm_num [h0']
  rw [hfl]
  push_cast
  ring

lemma jsRem_of_small {x n : ℝ} (hn : 0 < n) (h0 : 0 ≤ x) (h1 : x < n) :
    jsRem x n = x := by
  have hq0 : 0 ≤ x / n := div_nonneg h0 hn.le
  have hq1 : x / n < 1 := (div_lt_one hn).mpr h1
  unfold jsRem jsTrunc
  rw [if_pos hq0, Int.floor_eq_zero_iff.mpr ⟨hq0, hq1⟩]
  push_cast
  ring

/-- For a positive modulus the source's `mod` computes the canonical
residue `n * fract (a / n)`, which lies in `[0, n)`. -/
lemma mod_eq_fract {a n : ℝ} (hn : 0 < n) : mod a n = n * Int.fract (a / n) := by
  have hne : n ≠ 0 := ne_of_gt hn
  have hfr0 : 0 ≤ Int.fract (a / n) := Int.fract_nonneg _
  have hfr1 : Int.fract (a / n) < 1 := Int.fract_lt_one _
  have hrlt : n * Int.fract (a / n) < n := by
    calc n * Int.fract (a / n) < n * 1 := by
          exact mul_lt_mul_of_pos_left hfr1 hn
      _ = n := mul_one n
  have hr0 : 0 ≤ n * Int.fract (a / n) := mul_nonneg hn.le hfr0
  unfold mod
  rcases le_or_lt 0 (a / n) with hx | hx
  · rw [jsRem_of_nonneg hn hx]
    exact jsRem_add_self hn hr0 hrlt
  · have ha : a = n * (a / n) := by field_simp
    rcases eq_or_ne (Int.fract (a / n)) 0 with hfz | hfz
    · -- the quotient is an integer: inner remainder is 0
      have hxi : a / n = (⌊a / n⌋ : ℝ) := by
        have := Int.self_sub_floor (a / n)
        rw [hfz] at this
        linarith
      have hinner : jsRem a n = 0 := by
        unfold jsRem jsTrunc
        rw [if_neg (not_le.mpr hx), hxi, Int.ceil_intCast]
        linarith [(div_eq_iff hne).mp hxi]
      rw [hinner, hfz, mul_zero]
      exact jsRem_add_self hn le_rfl hn
    · -- the quotient is not an integer: ceil = floor + 1
      have hflt : (⌊a / n⌋ : ℝ) < a / n := by
        have := Int.self_sub_floor (a / n)
        have hpos : 0 < Int.fract (a / n) := lt_of_le_of_ne hfr0 (Ne.symm hfz)
        linarith
      have hceil : ⌈a / n⌉ = ⌊a / n⌋ + 1 := by
        refine le_antisymm (Int.ceil_le_floor_add_one _) ?_
        have h1 : (⌊a / n⌋ : ℝ) < (⌈a / n⌉ : ℝ) :=
          lt_of_lt_of_le hflt (Int.le_ceil _)
        have h2 : ⌊a / n⌋ < ⌈a / n⌉ := by exact_mod_cast h1
        omega
      have hinner : jsRem a n = n * Int.fract (a / n) - n := by
        unfold jsRem jsTrunc
        rw [if_neg (not_le.mpr hx), hceil, ← Int.self_sub_floor]
        push_cast
        linear_combination ha
      rw [hinner]
      have harg : n * Int.fract (a / n) - n + n = n * Int.fract (a / n) := by ring
      rw [harg]
      exact jsRem_of_small hn hr0 hrlt

lemma mod_nonneg {a n : ℝ} (hn : 0 < n) : 0 ≤ mod a n := by
  rw [mod_eq_fract hn]
  exact mul_nonneg hn.le (Int.fract_nonneg _)

lemma mod_lt {a n : ℝ} (hn : 0 < n) : mod a n < n := by
  rw [mod_eq_fract hn]
  calc n * Int.fract (a / n) < n * 1 :=
        mul_lt_mul_of_pos_left (Int.fract_lt_one _) hn
    _ = n := mul_one n

/-- `mod a n` differs from `a` by an integer multiple of `n`. -/
lemma mod_sub_self_int {a n : ℝ} (hn : 0 < n) :
    ∃ m : ℤ, mod a n = a + m * n := by
  have hne : n ≠ 0 := ne_of_gt hn
  have ha : a = n * (a / n) := by field_simp
  refine ⟨-⌊a / n⌋, ?_⟩
  rw [mod_eq_fract hn, ← Int.self_sub_floor]
  push_cast
  linear_combination -ha

/-- `mod` is invariant under shifting by integer multiples of the modulus. -/
lemma mod_add_int_mul {a n : ℝ} (hn : 0 < n) (m : ℤ) :
    mod (a + m * n) n = mod a n := by
  have hne : n ≠ 0 := ne_of_gt hn
  rw [mod_eq_fract hn, mod_eq_fract hn]
  have harg : (a + m * n) / n = a / n + m := by field_simp
  rw [harg, Int.fract_add_int]

lemma mod_eq_self {a n : ℝ} (hn : 0 < n) (h0 : 0 ≤ a) (h1 : a < n) :
    mod a n = a := by
  have hne : n ≠ 0 := ne_of_gt hn
  rw [mod_eq_fract hn]
  have : Int.fract (a / n) = a / n :=
    Int.fract_eq_self.mpr ⟨div_nonneg h0 hn.le, (div_lt_one hn).mpr h1⟩
  rw [this]
  field_simp

/-- Taking `mod` of the subtrahend first does not change a wrapped difference. -/
lemma mod_sub_mod {p b n : ℝ} (hn : 0 < n) :
    mod (p - mod b n) n = mod (p - b) n := by
  obtain ⟨m, hm⟩ := mod_sub_self_int (a := b) hn
  have harg : p - mod b n = p - b + ((-m : ℤ) : ℝ) * n := by
    rw [hm]; push_cast; ring
  rw [harg, mod_add_int_mul hn]

/-! ### The slice lookup -/

lemma winnerIndex_eq_sliceAt (L : ℕ) (rot : ℝ) :
    winnerIndex L rot = sliceAt L (mod (0 - rot) tau) := rfl

lemma resolveWinner_eq_sliceAt (L : ℕ) (finalRot pointer : ℝ) :
    resolveWinner L finalRot pointer = sliceAt L (mod (pointer - finalRot) tau) := rfl

lemma winnerIndex_eq_resolveWinner (L : ℕ) (rot : ℝ) :
    winnerIndex L rot = resolveWinner L rot 0 := rfl

lemma sliceSpan_eq {L : ℕ} (h : 1 ≤ L) : sliceSpan L = tau / (L:ℝ) := by
  unfold sliceSpan
  rw [max_eq_right h]

lemma sliceSpan_pos {L : ℕ} (h : 1 ≤ L) : 0 < sliceSpan L := by
  rw [sliceSpan_eq h]
  have hL0 : (0:ℝ) < (L:ℝ) := by exact_mod_cast h
  exact div_pos tau_pos hL0

lemma sliceAt_eq_toNat_floor {L : ℕ} (h : 1 ≤ L) {p : ℝ} (hp0 : 0 ≤ p) (hp1 : p < tau) :
    sliceAt L p = (⌊p / sliceSpan L⌋).toNat ∧ sliceAt L p < L := by
  have hL0 : (0:ℝ) < (L:ℝ) := by exact_mod_cast h
  have hs : 0 < sliceSpan L := sliceSpan_pos h
  have hq0 : 0 ≤ p / sliceSpan L := div_nonneg hp0 hs.le
  have hqL : p / sliceSpan L < (L:ℝ) := by
    rw [div_lt_iff₀ hs]
    calc p < tau := hp1
      _ = (L:ℝ) * sliceSpan L := by
          rw [sliceSpan_eq h]
          field_simp
  have hz0 : 0 ≤ ⌊p / sliceSpan L⌋ := Int.floor_nonneg.mpr hq0
  have hzL : ⌊p / sliceSpan L⌋ < (L:ℤ) := by
    rw [Int.floor_lt]
    exact_mod_cast hqL
  have htn : (⌊p / sliceSpan L⌋).toNat < L := by omega
  have hbody : sliceAt L p = min (L - 1) (⌊p / sliceSpan L⌋).toNat := by
    unfold sliceAt
    rw [max_eq_right h, ← sliceSpan_eq h]
  rw [hbody]
  constructor
  · omega
  · omega

lemma sliceAt_mem {L : ℕ} (h : 1 ≤ L) {p : ℝ} (hp0 : 0 ≤ p) (hp1 : p < tau) :
    sliceAt L p < L ∧ sliceStart L (sliceAt L p) ≤ p ∧
    p < sliceStart L (sliceAt L p) + sliceSpan L := by
  obtain ⟨hidx, hlt⟩ := sliceAt_eq_toNat_floor h hp0 hp1
  have hs : 0 < sliceSpan L := sliceSpan_pos h
  have hz0 : 0 ≤ ⌊p / sliceSpan L⌋ :=
    Int.floor_nonneg.mpr (div_nonneg hp0 hs.le)
  have hcast : ((⌊p / sliceSpan L⌋.toNat : ℕ) : ℝ) = ((⌊p / sliceSpan L⌋ : ℤ) : ℝ) := by
    exact_mod_cast Int.toNat_of_nonneg hz0
  refine ⟨hlt, ?_, ?_⟩
  · unfold sliceStart
    rw [hidx, hcast]
    calc ((⌊p / sliceSpan L⌋ : ℤ) : ℝ) * sliceSpan L
        ≤ (p / sliceSpan L) * sliceSpan L :=
          mul_le_mul_of_nonneg_right (Int.floor_le _) hs.le
      _ = p := div_mul_cancel₀ p hs.ne'
  · unfold sliceStart
    rw [hidx, hcast]
    calc p = (p / sliceSpan L) * sliceSpan L := (div_mul_cancel₀ p hs.ne').symm
      _ < (((⌊p / sliceSpan L⌋ : ℤ) : ℝ) + 1) * sliceSpan L :=
          mul_lt_mul_of_pos_right (Int.lt_floor_add_one _) hs
      _ = ((⌊p / sliceSpan L⌋ : ℤ) : ℝ) * sliceSpan L + sliceSpan L := by ring

lemma sliceAt_unique {L : ℕ} (h : 1 ≤ L) {p : ℝ} (hp0 : 0 ≤ p) (hp1 : p < tau)
    {j : ℕ} (_hj : j < L) (hlo : sliceStart L j ≤ p)
    (hhi : p < sliceStart L j + sliceSpan L) :
    j = sliceAt L p := by
  obtain ⟨hidx, _⟩ := sliceAt_eq_toNat_floor h hp0 hp1
  have hs : 0 < sliceSpan L := sliceSpan_pos h
  have hfl : ⌊p / sliceSpan L⌋ = (j : ℤ) := by
    rw [Int.floor_eq_iff]
    constructor
    · rw [le_div_iff₀ hs]
      unfold sliceStart at hlo
      exact_mod_cast hlo
    · rw [div_lt_iff₀ hs]
      unfold sliceStart at hhi
      push_cast
      calc p < (j:ℝ) * sliceSpan L + sliceSpan L := hhi
        _ = ((j:ℝ) + 1) * sliceSpan L := by ring
  rw [hidx, hfl]
  exact (Int.toNat_natCast j).symm

lemma slice_disjoint_of_lt {L i j : ℕ} (h : 1 ≤ L) (hij : i < j) :
    Disjoint (Set.Ico (sliceStart L i) (sliceStart L i + sliceSpan L))
      (Set.Ico (sliceStart L j) (sliceStart L j + sliceSpan L)) := by
  have hs : 0 < sliceSpan L := sliceSpan_pos h
  apply Set.disjoint_left.mpr
  rintro x ⟨_, hx2⟩ ⟨hx3, _⟩
  have hij' : ((i:ℝ) + 1) ≤ (j:ℝ) := by exact_mod_cast hij
  have hle : sliceStart L i + sliceSpan L ≤ sliceStart L j := by
    unfold sliceStart
    calc (i:ℝ) * sliceSpan L + sliceSpan L = ((i:ℝ) + 1) * sliceSpan L := by ring
      _ ≤ (j:ℝ) * sliceSpan L := mul_le_mul_of_nonneg_right hij' hs.le
  linarith

/-! ### Claim theorems -/

/-- C1: for every partition (of `L ≥ 1` slices) and every final rotation, the
pointer position in the wheel frame `p = mod(0 - finalRotation, 2π)` (pointer
angle 0 in the implementation) lies in `[0, 2π)`, and `winnerIndex` returns
exactly the unique index whose slice interval `[i·span, (i+1)·span)` contains
`p`; this computation coincides with the spec's `resolveWinner` at pointer
angle 0. -/
theorem C1_winner_from_wrapped_pointer (L : ℕ) (rot : ℝ) (h : 1 ≤ L) :
    0 ≤ mod (0 - rot) tau ∧ mod (0 - rot) tau < tau ∧
    winnerIndex L rot < L ∧
    sliceStart L (winnerIndex L rot) ≤ mod (0 - rot) tau ∧
    mod (0 - rot) tau < sliceStart L (winnerIndex L rot) + sliceSpan L ∧
    (∀ j : ℕ, j < L → sliceStart L j ≤ mod (0 - rot) tau →
        mod (0 - rot) tau < sliceStart L j + sliceSpan L → j = winnerIndex L rot) ∧
    winnerIndex L rot = resolveWinner L rot 0 := by
  have hp0 : 0 ≤ mod (0 - rot) tau := mod_nonneg tau_pos
  have hp1 : mod (0 - rot) tau < tau := mod_lt tau_pos
  obtain ⟨hlt, hlo, hhi⟩ := sliceAt_mem h hp0 hp1
  rw [winnerIndex_eq_sliceAt]
  exact ⟨hp0, hp1, hlt, hlo, hhi,
    fun j hj h1 h2 => sliceAt_unique h hp0 hp1 hj h1 h2, rfl⟩

theorem C1_winner_from_wrapped_pointer_witness :
    1 ≤ 4 ∧ winnerIndex 4 0 < 4 :=
  ⟨by decide, (C1_winner_from_wrapped_pointer 4 0 (by decide)).2.2.1⟩

/-- C7: for every non-empty entry list the drawn partition is complete: each
of the `L` slices spans one `L`-th of the full circle and starts at `i` times
that span, consecutive slices are contiguous, distinct slices are disjoint,
and the spans sum to exactly one full turn. -/
theorem C7_partition_complete (L : ℕ) (h : 1 ≤ L) :
    sliceSpan L = tau / L ∧
    (∀ i : ℕ, sliceStart L i = i * (tau / L)) ∧
    (∀ i : ℕ, sliceStart L (i + 1) = sliceStart L i + sliceSpan L) ∧
    (∑ _i ∈ Finset.range L, sliceSpan L) = tau ∧
    (∀ i j : ℕ, i < L → j < L → i ≠ j →
      Disjoint (Set.Ico (sliceStart L i) (sliceStart L i + sliceSpan L))
        (Set.Ico (sliceStart L j) (sliceStart L j + sliceSpan L))) := by
  have hspan : sliceSpan L = tau / L := sliceSpan_eq h
  have hL0 : (L:ℝ) ≠ 0 := by
    have : (0:ℝ) < (L:ℝ) := by exact_mod_cast h
    exact ne_of_gt this
  refine ⟨hspan, ?_, ?_, ?_, ?_⟩
  · intro i
    unfold sliceStart
    rw [hspan]
  · intro i
    unfold sliceStart
    push_cast
    ring
  · rw [Finset.sum_const, Finset.card_range, nsmul_eq_mul, hspan]
    field_simp
  · intro i j _ _ hij
    rcases Nat.lt_or_ge i j with hlt | hge
    · exact slice_disjoint_of_lt h hlt
    · have hlt : j < i := by omega
      exact (slice_disjoint_of_lt h hlt).symm

theorem C7_partition_complete_witness :
    1 ≤ 3 ∧ sliceSpan 3 = tau / 3 :=
  ⟨by decide, (C7_partition_complete 3 (by decide)).1⟩

/-- C2 counterexample: the claim's per-tick formula fails as stated on the
code.  At completion of a run with `start = 0`, `total = 3π` the code stores
`mod(3π, 2π) = π`, not the claimed `start + eased·(target−start) = 3π`
(the code wraps the rotation into `[0, 2π)` each frame); and at a tick
before `startTime` the code's progress is `min(1, negative)`, not the
claimed clamp to 0, so the rotations differ there too. -/
theorem C2_tick_counterexample :
    frameRotation ⟨0, 1, 0, 3 * Real.pi⟩ 1 ≠ tickSpecRotation ⟨0, 1, 0, 3 * Real.pi⟩ 1 ∧
    frameRotation ⟨1, 1, 0, Real.pi⟩ 0 ≠ tickSpecRotation ⟨1, 1, 0, Real.pi⟩ 0 := by
  have hπ := Real.pi_pos
  have htau : tau = 2 * Real.pi := rfl
  constructor
  · have hp : frameP ⟨0, 1, 0, 3 * Real.pi⟩ 1 = 1 := by
      unfold frameP; norm_num
    have hr : frameRotation ⟨0, 1, 0, 3 * Real.pi⟩ 1 = Real.pi := by
      unfold frameRotation
      rw [hp]
      unfold easeOutCubic
      norm_num
      have harg : (3:ℝ) * Real.pi = Real.pi + ((1:ℤ):ℝ) * tau := by
        rw [htau]; push_cast; ring
      rw [harg, mod_add_int_mul tau_pos]
      exact mod_eq_self tau_pos hπ.le (by rw [htau]; linarith)
    have hspec : tickSpecRotation ⟨0, 1, 0, 3 * Real.pi⟩ 1 = 3 * Real.pi := by
      unfold tickSpecRotation clamp01 easeOutCubic
      norm_num
    rw [hr, hspec]
    intro hC
    linarith
  · have hp : frameP ⟨1, 1, 0, Real.pi⟩ 0 = -1 := by
      unfold frameP; norm_num
    have hr : frameRotation ⟨1, 1, 0, Real.pi⟩ 0 = Real.pi := by
      unfold frameRotation
      rw [hp]
      unfold easeOutCubic
      norm_num
      have harg : -(Real.pi * 7) = Real.pi + ((-4:ℤ):ℝ) * tau := by
        rw [htau]; push_cast; ring
      rw [harg, mod_add_int_mul tau_pos]
      exact mod_eq_self tau_pos hπ.le (by rw [htau]; linarith)
    have hspec : tickSpecRotation ⟨1, 1, 0, Real.pi⟩ 0 = 0 := by
      unfold tickSpecRotation clamp01 easeOutCubic
      norm_num [min_def, max_def]
    rw [hr, hspec]
    exact ne_of_gt hπ

/-- C2 (amended): for every spin run with positive duration and every tick
time not before the start, the code's progress `min(1, (t−t0)/dur)` equals
the spec's `clamp((t−t0)/dur, 0, 1)`; the stored rotation is congruent
modulo one full turn to the spec's
`startRotation + eased·(targetRotation−startRotation)` with the cubic
ease-out, and is its canonical representative in `[0, 2π)`; and the spin is
reported done exactly when progress ≥ 1, equivalently when `t0 + dur ≤ t`. -/
theorem C2_tick_formula_amended (sp : SpinRun) (t : ℝ)
    (hdur : 0 < sp.dur) (ht : sp.t0 ≤ t) :
    frameP sp t = clamp01 ((t - sp.t0) / sp.dur) ∧
    (∃ m : ℤ, frameRotation sp t = tickSpecRotation sp t + m * tau) ∧
    0 ≤ frameRotation sp t ∧ frameRotation sp t < tau ∧
    (frameDone sp t ↔ 1 ≤ frameP sp t) ∧
    (frameDone sp t ↔ sp.t0 + sp.dur ≤ t) := by
  have hx0 : 0 ≤ (t - sp.t0) / sp.dur := div_nonneg (by linarith) hdur.le
  have hclamp : frameP sp t = clamp01 ((t - sp.t0) / sp.dur) := by
    unfold frameP clamp01
    exact (max_eq_right (le_min zero_le_one hx0)).symm
  refine ⟨hclamp, ?_, mod_nonneg tau_pos, mod_lt tau_pos, Iff.rfl, ?_⟩
  · obtain ⟨m, hm⟩ := mod_sub_self_int
      (a := sp.start + sp.total * easeOutCubic (frameP sp t)) tau_pos
    refine ⟨m, ?_⟩
    unfold frameRotation
    rw [hm]
    unfold tickSpecRotation
    rw [← hclamp]
    ring
  · unfold frameDone frameP
    constructor
    · intro hle
      have h1 : (1:ℝ) ≤ (t - sp.t0) / sp.dur := (le_min_iff.mp hle).2
      rw [le_div_iff₀ hdur] at h1
      linarith
    · intro hle
      have h1 : (1:ℝ) ≤ (t - sp.t0) / sp.dur := by
        rw [le_div_iff₀ hdur]
        linarith
      exact le_min le_rfl h1

theorem C2_tick_formula_amended_witness :
    (0:ℝ) < 1 ∧ (0:ℝ) ≤ 2 ∧ (frameDone ⟨0, 1, 0, 0⟩ 2 ↔ (0:ℝ) + 1 ≤ 2) :=
  ⟨by norm_num, by norm_num,
    (C2_tick_formula_amended ⟨0, 1, 0, 0⟩ 2 (by norm_num) (by norm_num)).2.2.2.2.2⟩

/-- C3: a spin request is accepted (a `SpinRun` is produced) exactly when no
spin is in progress and the wheel has at least 2 slices; a rejected request
returns the whole state unchanged — rotation, entry lists and spinning flag —
and nothing is queued; an accepted request only sets the spinning flag. -/
theorem C3_spin_acceptance (s : WheelState) (now u : ℝ) :
    ((spin s now u).2.isSome = true ↔ (s.spinning = false ∧ 2 ≤ s.labels.length)) ∧
    ((spin s now u).2 = none → (spin s now u).1 = s) ∧
    ((spin s now u).2.isSome = true → (spin s now u).1 = { s with spinning := true }) := by
  unfold spin
  by_cases hs : s.spinning
  · simp [hs]
  · by_cases hl : s.labels.length < 2
    · simp [hs, hl]
    · simp [hs, hl]
      omega

/-- C4: every accepted spin adds exactly `maxSpins` (= 6) whole turns plus a
fraction `u ∈ [0,1)` of a turn to the start rotation; with the app's
configuration `minSpins = maxSpins = 6`, the number of whole turns traversed
is the fixed value 6, the unique integer in the inclusive range
`[minSpins, maxSpins]`, and the total rotation is never less than the
configured number of full turns. -/
theorem C4_full_turns (u : ℝ) (h0 : 0 ≤ u) (h1 : u < 1) :
    INIT.minSpins = INIT.maxSpins ∧
    spinTotal INIT u = 6 * tau + u * tau ∧
    ⌊spinTotal INIT u / tau⌋ = 6 ∧
    INIT.minSpins ≤ ((6:ℤ) : ℝ) ∧ ((6:ℤ) : ℝ) ≤ INIT.maxSpins ∧
    INIT.maxSpins * tau ≤ spinTotal INIT u ∧
    (∀ s : WheelState, ∀ now : ℝ, ∀ sp : SpinRun,
      (spin s now u).2 = some sp →
        sp.total = spinTotal INIT u ∧ sp.start = s.rotation) := by
  have htot : spinTotal INIT u = 6 * tau + u * tau := by
    unfold spinTotal jsOr INIT
    norm_num
  refine ⟨rfl, htot, ?_, by norm_num [INIT], by norm_num [INIT], ?_, ?_⟩
  · have harg : spinTotal INIT u / tau = u + ((6:ℤ):ℝ) := by
      rw [htot, div_eq_iff tau_ne_zero]
      push_cast
      ring
    have h0' : ⌊u⌋ = 0 := Int.floor_eq_zero_iff.mpr ⟨h0, h1⟩
    rw [harg, Int.floor_add_int, h0']
    norm_num
  · rw [htot]
    have : 0 ≤ u * tau := mul_nonneg h0 tau_pos.le
    have hmax : INIT.maxSpins = (6:ℝ) := rfl
    rw [hmax]
    linarith
  · intro s now sp hsp
    unfold spin at hsp
    by_cases hcond : (s.spinning || decide (s.labels.length < 2)) = true
    · rw [if_pos hcond] at hsp
      simp at hsp
    · rw [if_neg hcond] at hsp
      simp at hsp
      rw [← hsp]
      exact ⟨rfl, rfl⟩

theorem C4_full_turns_witness :
    (0:ℝ) ≤ 1/2 ∧ (1/2:ℝ) < 1 ∧ ⌊spinTotal INIT (1/2) / tau⌋ = 6 :=
  ⟨by norm_num, by norm_num,
    (C4_full_turns (1/2) (by norm_num) (by norm_num)).2.2.1⟩

lemma forcedTarget_eq (L k : ℕ) (pointer startRot : ℝ) (turns : ℕ) :
    forcedTarget L k pointer startRot turns =
      startRot + turns * tau +
        mod (pointer - ((k : ℝ) + 1 / 2) * sliceSpan L - startRot) tau := rfl

/-- C5 (modelled from the spec; the source has no `forcedWinnerIndex` mode):
for every partition with at least 2 slices, every pointer angle, every start
rotation and every requested number of full turns, the final rotation of a
spin forced to index `k` — the wrapped value of `forcedTarget`, which is
exactly what the frame loop stores at completion — resolves to winner `k`,
regardless of the pointer angle. -/
theorem C5_forced_winner (L k : ℕ) (pointer startRot : ℝ) (turns : ℕ)
    (hL : 2 ≤ L) (hk : k < L) :
    resolveWinner L (mod (forcedTarget L k pointer startRot turns) tau) pointer = k ∧
    (∀ dur t0 : ℝ, 0 < dur →
      frameRotation
          ⟨t0, dur, startRot, forcedTarget L k pointer startRot turns - startRot⟩
          (t0 + dur)
        = mod (forcedTarget L k pointer startRot turns) tau) := by
  have h1 : (1:ℕ) ≤ L := le_trans (by norm_num) hL
  have hspan : 0 < sliceSpan L := sliceSpan_pos h1
  have hc0 : 0 ≤ ((k : ℝ) + 1 / 2) * sliceSpan L := by positivity
  have hcτ : ((k : ℝ) + 1 / 2) * sliceSpan L < tau := by
    have hkL : (k:ℝ) + 1/2 < (L:ℝ) := by
      have : (k:ℝ) + 1 ≤ (L:ℝ) := by exact_mod_cast hk
      linarith
    calc ((k : ℝ) + 1 / 2) * sliceSpan L < (L:ℝ) * sliceSpan L :=
          mul_lt_mul_of_pos_right hkL hspan
      _ = tau := by
          rw [sliceSpan_eq h1]
          have : (L:ℝ) ≠ 0 := by positivity
          field_simp
  constructor
  · obtain ⟨m, hm⟩ :=
      mod_sub_self_int (a := pointer - ((k : ℝ) + 1 / 2) * sliceSpan L - startRot) tau_pos
    have key : mod (pointer - mod (forcedTarget L k pointer startRot turns) tau) tau
        = ((k : ℝ) + 1 / 2) * sliceSpan L := by
      rw [mod_sub_mod tau_pos]
      have harg : pointer - forcedTarget L k pointer startRot turns
          = ((k : ℝ) + 1 / 2) * sliceSpan L + (((-(turns:ℤ) - m) : ℤ) : ℝ) * tau := by
        rw [forcedTarget_eq, hm]
        push_cast
        ring
      rw [harg, mod_add_int_mul tau_pos]
      exact mod_eq_self tau_pos hc0 hcτ
    have hlo : sliceStart L k ≤ ((k : ℝ) + 1 / 2) * sliceSpan L := by
      unfold sliceStart
      have : (k:ℝ) ≤ (k:ℝ) + 1/2 := by linarith
      exact mul_le_mul_of_nonneg_right this hspan.le
    have hhi : ((k : ℝ) + 1 / 2) * sliceSpan L < sliceStart L k + sliceSpan L := by
      unfold sliceStart
      have h2 : ((k:ℝ) + 1/2) * sliceSpan L < ((k:ℝ) + 1) * sliceSpan L :=
        mul_lt_mul_of_pos_right (by linarith) hspan
      calc ((k : ℝ) + 1 / 2) * sliceSpan L < ((k:ℝ) + 1) * sliceSpan L := h2
        _ = (k:ℝ) * sliceSpan L + sliceSpan L := by ring
    rw [resolveWinner_eq_sliceAt, key]
    exact (sliceAt_unique h1 hc0 hcτ hk hlo hhi).symm
  · intro dur t0 hdur
    have hp : frameP
        ⟨t0, dur, startRot, forcedTarget L k pointer startRot turns - startRot⟩
        (t0 + dur) = 1 := by
      unfold frameP
      have : (t0 + dur - t0) / dur = 1 := by
        field_simp
      rw [this, min_self]
    unfold frameRotation
    rw [hp]
    unfold easeOutCubic
    norm_num

theorem C5_forced_winner_witness :
    2 ≤ 3 ∧ 1 < 3 ∧
    resolveWinner 3 (mod (forcedTarget 3 1 0 0 6) tau) 0 = 1 :=
  ⟨by decide, by decide, (C5_forced_winner 3 1 0 0 6 (by decide) (by decide)).1⟩

/-- C6: for a fixed spin, evaluating the frame computation at the same time
twice yields the same rotation (it is a function of absolute time only),
progress is monotone in absolute time, and the rotation after processing any
list of earlier ticks followed by a tick at time `t` equals the rotation
computed directly at `t` — missed or repeated ticks cannot change it. -/
theorem C6_tick_monotone_history_free (sp : SpinRun) (t t' : ℝ)
    (hdur : 0 < sp.dur) (htt : t ≤ t') :
    frameP sp t ≤ frameP sp t' ∧
    (∀ r0 : ℝ, ∀ ts : List ℝ,
      List.foldl (fun _ x => frameRotation sp x) r0 (ts ++ [t])
        = frameRotation sp t) := by
  constructor
  · unfold frameP
    refine min_le_min le_rfl ?_
    have hsub : t - sp.t0 ≤ t' - sp.t0 := by linarith
    exact div_le_div_of_nonneg_right hsub hdur.le
  · intro r0 ts
    rw [List.foldl_append]
    rfl

lemma rmAllAux_spec (name : String) (ls : List String) :
    ∀ fs : List String, ls.length = fs.length →
      (rmAllAux name ls fs).1 = ls.filter (fun l => l != name) ∧
      (rmAllAux name ls fs).1.zip (rmAllAux name ls fs).2
        = (ls.zip fs).filter (fun p => p.1 != name) ∧
      (rmAllAux name ls fs).1.length = (rmAllAux name ls fs).2.length := by
  induction ls with
  | nil =>
    intro fs h
    simp [rmAllAux]
  | cons l ls ih =>
    intro fs h
    cases fs with
    | nil => simp at h
    | cons f fs =>
      have hlen : ls.length = fs.length := by simpa using h
      obtain ⟨ih1, ih2, ih3⟩ := ih fs hlen
      rw [ih1] at ih2 ih3
      by_cases hl : l = name
      · simp [rmAllAux, hl, ih1, ih2, ih3]
      · simp [rmAllAux, hl, ih1, ih2, ih3]

lemma zip_eraseIdx (ls : List String) :
    ∀ (fs : List String) (i : ℕ), ls.length = fs.length →
      (ls.eraseIdx i).zip (fs.eraseIdx i) = (ls.zip fs).eraseIdx i := by
  induction ls with
  | nil =>
    intro fs i _
    simp
  | cons l ls ih =>
    intro fs i h
    cases fs with
    | nil => simp at h
    | cons f fs =>
      have hlen : ls.length = fs.length := by simpa using h
      cases i with
      | zero => simp
      | succ n => simp [ih fs n hlen]

lemma length_eraseIdx_eq (ls : List String) :
    ∀ (fs : List String) (i : ℕ), ls.length = fs.length →
      (ls.eraseIdx i).length = (fs.eraseIdx i).length := by
  induction ls with
  | nil =>
    intro fs i h
    cases fs with
    | nil => simp
    | cons f fs => simp at h
  | cons l ls ih =>
    intro fs i h
    cases fs with
    | nil => simp at h
    | cons f fs =>
      have hlen : ls.length = fs.length := by simpa using h
      cases i with
      | zero => simpa using hlen
      | succ n => simp [ih fs n hlen]

/-- C8: eliminating all entries matching the winner's label removes exactly
the (label, full) pairs whose label is string-equal to that label, keeps the
remaining pairs in their relative order, leaves rotation and the spinning
flag alone, and the two lists stay in step. -/
theorem C8_remove_all_matching (s : WheelState) (i : ℕ) (name : String)
    (hidx : s.lastIdx = some i) (hname : s.labels[i]? = some name)
    (hlen : s.labels.length = s.fulls.length) :
    (rmAllOp s).labels = s.labels.filter (fun l => l != name) ∧
    (rmAllOp s).labels.zip ((rmAllOp s).fulls)
      = (s.labels.zip s.fulls).filter (fun p => p.1 != name) ∧
    (∀ l ∈ (rmAllOp s).labels, l ≠ name) ∧
    (rmAllOp s).labels.length = (rmAllOp s).fulls.length ∧
    (rmAllOp s).rotation = s.rotation ∧
    (rmAllOp s).spinning = s.spinning ∧
    (rmAllOp s).lastIdx = none := by
  obtain ⟨h1, h2, h3⟩ := rmAllAux_spec name s.labels s.fulls hlen
  have hop : rmAllOp s =
      { s with labels := (rmAllAux name s.labels s.fulls).1,
               fulls := (rmAllAux name s.labels s.fulls).2,
               lastIdx := none } := by
    unfold rmAllOp
    simp only [hidx, hname]
  rw [hop]
  refine ⟨h1, h2, ?_, h3, rfl, rfl, rfl⟩
  intro l hlmem
  rw [h1, List.mem_filter] at hlmem
  simpa using hlmem.2

theorem C8_remove_all_matching_witness :
    (rmAllOp ⟨["a", "b", "a"], ["A", "B", "C"], 0, false, some 0⟩).labels
      = (["a", "b", "a"] : List String).filter (fun l => l != "a") :=
  (C8_remove_all_matching ⟨["a", "b", "a"], ["A", "B", "C"], 0, false, some 0⟩
    0 "a" rfl rfl rfl).1

/-- C10 (implicit): the labels list and the fulls list have equal length
initially and after every mutating operation, removals delete the same
positions from both lists (the zipped pair list is erased / filtered as a
whole), and a spin leaves both lists untouched — so the full record at a
winner index always belongs to the winning slice. -/
theorem C10_labels_fulls_parallel (init : List String) (s : WheelState)
    (hlen : s.labels.length = s.fulls.length) :
    (initState init).labels.length = (initState init).fulls.length ∧
    (resetOp (init.map displayName) init s).labels.length
      = (resetOp (init.map displayName) init s).fulls.length ∧
    (rm1Op s).labels.length = (rm1Op s).fulls.length ∧
    (rmAllOp s).labels.length = (rmAllOp s).fulls.length ∧
    (∀ now u : ℝ,
      (spin s now u).1.labels = s.labels ∧ (spin s now u).1.fulls = s.fulls) ∧
    (∀ i : ℕ, s.lastIdx = some i →
      (rm1Op s).labels.zip ((rm1Op s).fulls) = (s.labels.zip s.fulls).eraseIdx i) ∧
    (∀ (i : ℕ) (name : String), s.lastIdx = some i → s.labels[i]? = some name →
      (rmAllOp s).labels.zip ((rmAllOp s).fulls)
        = (s.labels.zip s.fulls).filter (fun p => p.1 != name)) := by
  refine ⟨by simp [initState], by simp [resetOp], ?_, ?_, ?_, ?_, ?_⟩
  · unfold rm1Op
    cases hidx : s.lastIdx with
    | none => exact hlen
    | some i => exact length_eraseIdx_eq s.labels s.fulls i hlen
  · unfold rmAllOp
    cases hidx : s.lastIdx with
    | none => exact hlen
    | some i =>
      cases hname : s.labels[i]? with
      | none =>
        simp only [hname]
        exact hlen
      | some name =>
        simp only [hname]
        exact (rmAllAux_spec name s.labels s.fulls hlen).2.2
  · intro now u
    unfold spin
    by_cases hcond : (s.spinning || decide (s.labels.length < 2)) = true
    · rw [if_pos hcond]
      exact ⟨rfl, rfl⟩
    · rw [if_neg hcond]
      exact ⟨rfl, rfl⟩
  · intro i hidx
    unfold rm1Op
    rw [hidx]
    exact zip_eraseIdx s.labels s.fulls i hlen
  · intro i name hidx hname
    unfold rmAllOp
    simp only [hidx, hname]
    exact (rmAllAux_spec name s.labels s.fulls hlen).2.1

theorem C10_labels_fulls_parallel_witness :
    (initState ["q - w"]).labels.length = (initState ["q - w"]).fulls.length :=
  (C10_labels_fulls_parallel ["q - w"] ⟨["x"], ["X"], 0, false, none⟩ rfl).1

lemma ticketCount_eq_spec (tn : String → Option ℚ) (r : Row) :
    ticketCount tn r = spec_ticket_count tn r := by
  unfold ticketCount spec_ticket_count astype_int
  cases hb : r.tickets.bind tn with
  | none => simp
  | some q =>
    simp only [Option.getD_some]
    by_cases hq : q < 0
    · rw [if_neg (not_le.mpr hq), if_pos hq]
      have hc : ⌈q⌉ ≤ 0 := Int.ceil_le.mpr (by exact_mod_cast hq.le)
      omega
    · rw [if_pos (not_lt.mp hq), if_neg hq]

lemma zipmap_flatMap (f : Row → String) (g : Row → ℕ) (l : List Row) :
    ((l.map f).zip (l.map g)).flatMap (fun p => List.replicate p.2 p.1)
      = l.flatMap fun r => List.replicate (g r) (f r) := by
  induction l with
  | nil => rfl
  | cons r rs ih => simp [ih]

/-- C9: for every sheet (as a row list), the generated entry list is exactly
the rows whose stripped ID1 equals the (stripped) filter value, in order,
each composed as Full Name + separator + Email1 + separator + Phone Number,
repeated `max(0, int(tickets))` times with non-numeric and negative ticket
values clamped to 0; every generated entry comes from a matching row with a
positive ticket count, and the computation is total (never fails). -/
theorem C9_build_entries_refines (tn : String → Option ℚ) (rows : List Row)
    (idv sep : String) :
    build_entries tn rows idv sep = build_entries_spec tn rows idv sep ∧
    (∀ e ∈ build_entries tn rows idv sep, ∃ r ∈ rows,
      matchesId idv r = true ∧ e = composeEntry sep r ∧ 1 ≤ ticketCount tn r) := by
  have hfuse :=
    zipmap_flatMap (composeEntry sep) (ticketCount tn) (rows.filter (matchesId idv))
  have heq : build_entries tn rows idv sep = build_entries_spec tn rows idv sep := by
    unfold build_entries build_entries_spec
    rw [hfuse]
    simp only [ticketCount_eq_spec]
  refine ⟨heq, ?_⟩
  intro e he
  unfold build_entries at he
  rw [hfuse] at he
  rw [List.mem_flatMap] at he
  obtain ⟨r, hr, he2⟩ := he
  rw [List.mem_filter] at hr
  rw [List.mem_replicate] at he2
  exact ⟨r, hr.1, hr.2, he2.2, by omega⟩

theorem C6_tick_monotone_history_free_witness :
    (0:ℝ) < 1 ∧ (0:ℝ) ≤ 1 ∧
    List.foldl (fun _ x => frameRotation ⟨0, 1, 0, 0⟩ x) 5 ([3] ++ [0])
      = frameRotation ⟨0, 1, 0, 0⟩ 0 :=
  ⟨by norm_num, by norm_num,
    (C6_tick_monotone_history_free ⟨0, 1, 0, 0⟩ 0 1 (by norm_num) (by norm_num)).2 5 [3]⟩

end Raffle
